import Mathlib

/-!
Shallow embedding of `util/pmdk_logger.h` (class `leveldb::PmdkLogger`).

The logger owns a memory-mapped persistent region backed by a file.  Its
mutable state is the mapped capacity `length_`, the logical write offset
`now_off_`, and the base pointer `mmap_base_` (modelled only by whether it
is null).  We additionally model the backing file: its byte content `mem`
(remapping the same file preserves content) and its allocated size
`fileSize` (each `pmem_map_file(path, n, ...)` call truncates/extends the
file to `n` bytes).

The external mapping primitive `pmem_map_file` is modelled as an oracle
from the requested size to the size it actually maps (`new_size`), subject
to the mapping-service contract that the mapped size is at least the
requested size.  The formatting primitives `snprintf`/`vsnprintf` are
modelled by their C semantics: given an unbounded rendering of the header
(resp. the message), a call with buffer size `n` stores the first `n - 1`
characters and returns the full (untruncated) length.
-/

/-- `kStackBufferSize` from `Logv`: size of the stack staging buffer. -/
def kStackBufferSize : Nat := 512

/-- `kMaxThreadIdSize` from `Logv`: maximal kept thread-id length. -/
def kMaxThreadIdSize : Nat := 32

/-- The fixed growth increment `32*1024*1024` used in the remap request. -/
def kGrowthIncrement : Nat := 32 * 1024 * 1024

/-- The mapping primitive `pmem_map_file`, abstracted to the size it
returns: request `r` bytes, obtain a mapping of `new_size = f r` bytes,
with the contract that the mapped size covers the request. -/
def MapOracle : Type := { f : Nat → Nat // ∀ r : Nat, r ≤ f r }

/-- State of a `PmdkLogger` instance together with its backing file.
`length_` and `now_off_` are the members of the C++ class; `baseNull`
says whether `mmap_base_` is the null pointer (the constructor asserts it
is not); `fileSize` and `mem` model the backing file's allocated size and
byte content. -/
structure PmdkLogger where
  length_ : Nat
  now_off_ : Nat
  baseNull : Bool
  fileSize : Nat
  mem : Nat → Char

/-- The constructor `PmdkLogger(filename, mmap_base, length, existing)`:
adopts the caller-supplied mapping of `length` bytes and starts the
logical offset at `length` when `existing` and at `0` otherwise
(`now_off_(existing ? length : 0)`).  The base pointer is asserted
non-null. -/
def mkLogger (length : Nat) (existing : Bool) (fileSize : Nat)
    (mem : Nat → Char) : PmdkLogger :=
  { length_ := length
    now_off_ := if existing then length else 0
    baseNull := false
    fileSize := fileSize
    mem := mem }

/-- The capacity-growth loop of `Logv`:
`while (now_off_ + buffer_offset > length_) { pmem_unmap(...);
mmap_base_ = pmem_map_file(filename_, length_ + 32*1024*1024,
PMEM_FILE_CREATE | PMEM_FILE_SPARSE, 0666, &new_size, NULL);
length_ = new_size; }`.
Returns the final `(length_, fileSize)`.  Each remap request extends the
backing file to the requested size (sparse), and the adopted capacity is
whatever the oracle returns for the request. -/
def growLoop (f : MapOracle) (noff rec len fsz : Nat) : Nat × Nat :=
  if len < noff + rec then
    growLoop f noff rec (f.1 (len + kGrowthIncrement)) (len + kGrowthIncrement)
  else
    (len, fsz)
termination_by noff + rec - len
decreasing_by
  have h1 : len + kGrowthIncrement ≤ f.1 (len + kGrowthIncrement) := f.2 _
  have h2 : 0 < kGrowthIncrement := by norm_num [kGrowthIncrement]
  omega

/-- The successive values taken by `length_` after each iteration of the
capacity-growth loop of `Logv` (one entry per executed remap). -/
def growthLengths (f : MapOracle) (noff rec len : Nat) : List Nat :=
  if len < noff + rec then
    f.1 (len + kGrowthIncrement) ::
      growthLengths f noff rec (f.1 (len + kGrowthIncrement))
  else
    []
termination_by noff + rec - len
decreasing_by
  have h1 : len + kGrowthIncrement ≤ f.1 (len + kGrowthIncrement) := f.2 _
  have h2 : 0 < kGrowthIncrement := by norm_num [kGrowthIncrement]
  omega

/-- The newline fix-up at the end of the formatting loop:
`if (buffer[buffer_offset - 1] != '\n') { buffer[buffer_offset] = '\n';
++buffer_offset; }`. -/
def addNewline (content : List Char) : List Char :=
  if content.getLast? = some '\n' then content else content ++ ['\n']

/-- Outcome of the two-iteration formatting loop of `Logv`. -/
structure FormatOut where
  usedDynamic : Bool
  dynamicSize : Nat
  record : List Char

/-- The two-iteration formatting loop of `Logv`, for a header rendering
`hdr` and a message rendering `msg` (the unbounded outputs of the header
`snprintf` and of `vsnprintf(format, arguments)`).  Iteration 0 prints
into the 512-byte stack buffer; `buffer_offset` becomes
`hdr.length + msg.length` and the stored bytes are truncated to the
buffer size minus one.  If `buffer_offset >= buffer_size - 1` the message
did not fit: iteration 1 reruns with a dynamic buffer of size
`buffer_offset + 2`; a second overflow (impossible for a correct
formatter) is recovered by truncating to `buffer_size - 1`.  Finally a
newline is appended when the last stored byte is not one. -/
def formatRecord (hdr msg : List Char) : FormatOut :=
  let off0 := hdr.length + msg.length
  if kStackBufferSize - 1 ≤ off0 then
    let dsize := off0 + 2
    let content1 := (hdr ++ msg).take (dsize - 1)
    if dsize - 1 ≤ off0 then
      { usedDynamic := true, dynamicSize := dsize
        record := addNewline (content1.take (dsize - 1)) }
    else
      { usedDynamic := true, dynamicSize := dsize
        record := addNewline content1 }
  else
    { usedDynamic := false, dynamicSize := 0
      record := addNewline ((hdr ++ msg).take (kStackBufferSize - 1)) }

/-- `pmem_memcpy(mmap_base_ + off, buffer, n, PMEM_F_MEM_NONTEMPORAL)`:
the mapped bytes at `[off, off + bs.length)` become `bs`; others keep
their value. -/
def writeBytes (mem : Nat → Char) (off : Nat) (bs : List Char) :
    Nat → Char :=
  fun i =>
    if h : off ≤ i ∧ i - off < bs.length then bs.get ⟨i - off, h.2⟩
    else mem i

/-- One `Logv(format, arguments)` call, given the rendered header `hdr`
and rendered message `msg`: format the record, grow the mapping until
`now_off_ + buffer_offset ≤ length_`, copy the record at `now_off_`, and
advance `now_off_` by the record length. -/
def Logv (f : MapOracle) (hdr msg : List Char) (s : PmdkLogger) :
    PmdkLogger :=
  let record := (formatRecord hdr msg).record
  let g := growLoop f s.now_off_ record.length s.length_ s.fileSize
  { length_ := g.1
    now_off_ := s.now_off_ + record.length
    baseNull := s.baseNull
    fileSize := g.2
    mem := writeBytes s.mem s.now_off_ record }

/-- A sequence of sequential `Logv` calls, each given as a rendered
(header, message) pair. -/
def stepAll (f : MapOracle) (s : PmdkLogger)
    (calls : List (List Char × List Char)) : PmdkLogger :=
  calls.foldl (fun t c => Logv f c.1 c.2 t) s

/-- The destructor `~PmdkLogger`: if `mmap_base_ != NULL`, unmap, remap
the same file requesting `now_off_ + 1` bytes with `PMEM_FILE_CREATE`
(which truncates the file to the request), adopt `new_size`, and unmap
again; otherwise do nothing. -/
def dtorStep (f : MapOracle) (s : PmdkLogger) : PmdkLogger :=
  if s.baseNull then s
  else
    { length_ := f.1 (s.now_off_ + 1)
      now_off_ := s.now_off_
      baseNull := s.baseNull
      fileSize := s.now_off_ + 1
      mem := s.mem }

/-- The capacity-offset invariant of the data model: the mapped capacity
`length_` is at least the logical offset `now_off_`. -/
def CapInv (s : PmdkLogger) : Prop := s.now_off_ ≤ s.length_

/-- The byte range each call of a call sequence occupies: for each call,
the pair (start offset, record length) of the committed record. -/
def recordRanges (f : MapOracle) :
    PmdkLogger → List (List Char × List Char) → List (Nat × Nat)
  | _, [] => []
  | s, c :: cs =>
    (s.now_off_, (formatRecord c.1 c.2).record.length) ::
      recordRanges f (Logv f c.1 c.2 s) cs

/-- The decimal digit characters, `digitChar d` for `d < 10`. -/
def digitChar (d : Nat) : Char :=
  (['0', '1', '2', '3', '4', '5', '6', '7', '8', '9']).getD d '0'

/-- Decimal rendering of a natural number, most significant digit first:
the digit sequence `printf("%d", n)` produces for a non-negative value. -/
def natToDigits (n : Nat) : List Char :=
  if _h : n < 10 then [digitChar n]
  else natToDigits (n / 10) ++ [digitChar (n % 10)]
termination_by n
decreasing_by
  exact Nat.div_lt_self (by omega) (by norm_num)

/-- The conversion `%0Wd` of `printf` for a non-negative value: decimal
digits, zero-padded on the left to at least `w` characters. -/
def fmtInt (w : Nat) (n : Nat) : List Char :=
  List.replicate (w - (natToDigits n).length) '0' ++ natToDigits n

/-- The broken-down time `struct tm` fields used by `Logv` (filled by
`localtime_r`), plus the microseconds of the captured `timeval`. -/
structure TmNow where
  tm_year : Nat
  tm_mon : Nat
  tm_mday : Nat
  tm_hour : Nat
  tm_min : Nat
  tm_sec : Nat
  tv_usec : Nat

/-- The thread-id truncation of `Logv`:
`if (thread_id.size() > kMaxThreadIdSize) thread_id.resize(32)`. -/
def truncThreadId (tid : List Char) : List Char :=
  if kMaxThreadIdSize < tid.length then tid.take kMaxThreadIdSize else tid

/-- The header `snprintf` of `Logv` with format
`"%04d/%02d/%02d-%02d:%02d:%02d.%06d %s "` applied to
`tm_year + 1900, tm_mon + 1, tm_mday, tm_hour, tm_min, tm_sec, tv_usec`
and the (already truncated) thread-id string. -/
def formatHeader (t : TmNow) (tid : List Char) : List Char :=
  fmtInt 4 (t.tm_year + 1900) ++ ['/'] ++ fmtInt 2 (t.tm_mon + 1) ++
    ['/'] ++ fmtInt 2 t.tm_mday ++ ['-'] ++ fmtInt 2 t.tm_hour ++
    [':'] ++ fmtInt 2 t.tm_min ++ [':'] ++ fmtInt 2 t.tm_sec ++
    ['.'] ++ fmtInt 6 t.tv_usec ++ [' '] ++ tid ++ [' ']

/-- Modelled from the spec: the external formatting primitive
(`vsnprintf`) applied to the format string `"%s=%d"` with a string and an
integer argument — the string, an equals sign, then the decimal
rendering of the integer. -/
def fmtPercentSPercentD (s : List Char) (d : Nat) : List Char :=
  s ++ ['='] ++ natToDigits d

/-- Whether a byte sequence ends with exactly one trailing line break:
its last byte is a line break and the byte before it is not. -/
def endsWithOneNewline (l : List Char) : Bool :=
  decide (l.getLast? = some '\n') &&
    decide (¬ l.dropLast.getLast? = some '\n')

/-- Unfolding equation for `growLoop`. -/
theorem growLoop_eq (f : MapOracle) (noff rec len fsz : Nat) :
    growLoop f noff rec len fsz =
      if len < noff + rec then
        growLoop f noff rec (f.1 (len + kGrowthIncrement))
          (len + kGrowthIncrement)
      else (len, fsz) := by
  rw [growLoop]

/-- Unfolding equation for `growthLengths`. -/
theorem growthLengths_eq (f : MapOracle) (noff rec len : Nat) :
    growthLengths f noff rec len =
      if len < noff + rec then
        f.1 (len + kGrowthIncrement) ::
          growthLengths f noff rec (f.1 (len + kGrowthIncrement))
      else [] := by
  rw [growthLengths]

/-- The growth loop exits only once the capacity covers the pending
record: `now_off_ + buffer_offset ≤ length_` on exit. -/
theorem growLoop_reaches (f : MapOracle) (noff rec len fsz : Nat) :
    noff + rec ≤ (growLoop f noff rec len fsz).1 := by
  induction len, fsz using growLoop.induct f noff rec with
  | case1 len fsz h ih => rw [growLoop_eq, if_pos h]; exact ih
  | case2 len fsz h => rw [growLoop_eq, if_neg h]; omega

/-- The growth loop never shrinks the capacity. -/
theorem growLoop_len_le (f : MapOracle) (noff rec len fsz : Nat) :
    len ≤ (growLoop f noff rec len fsz).1 := by
  induction len, fsz using growLoop.induct f noff rec with
  | case1 len fsz h ih =>
    rw [growLoop_eq, if_pos h]
    exact le_trans (le_trans (Nat.le_add_right len kGrowthIncrement)
      (f.2 _)) ih
  | case2 len fsz h => rw [growLoop_eq, if_neg h]

/-- When the mapping primitive returns exactly the requested size (the
behaviour of `pmem_map_file` with `PMEM_FILE_CREATE` and a nonzero
length), an entered growth loop adds a positive multiple of the 32 MiB
increment to the capacity. -/
theorem growLoop_exact (f : MapOracle) (noff rec : Nat)
    (hExact : ∀ r : Nat, f.1 r = r) :
    ∀ len fsz : Nat, len < noff + rec →
      ∃ k, 1 ≤ k ∧
        (growLoop f noff rec len fsz).1 = len + k * kGrowthIncrement := by
  intro len fsz
  induction len, fsz using growLoop.induct f noff rec with
  | case1 len fsz h ih =>
    intro _
    rw [growLoop_eq, if_pos h]
    by_cases h2 : f.1 (len + kGrowthIncrement) < noff + rec
    · obtain ⟨k, hk, he⟩ := ih h2
      refine ⟨k + 1, by omega, ?_⟩
      rw [he, hExact]
      ring
    · rw [growLoop_eq, if_neg h2]
      refine ⟨1, le_refl 1, ?_⟩
      simp [hExact]
  | case2 len fsz h => intro hc; exact absurd hc h

/-- Every capacity value observed after an iteration of the growth loop
is at least the logical offset, provided the capacity was at least the
offset when the loop started. -/
theorem growthLengths_ge (f : MapOracle) (noff rec : Nat) :
    ∀ len : Nat, noff ≤ len →
      ∀ L ∈ growthLengths f noff rec len, noff ≤ L := by
  intro len
  induction len using growthLengths.induct f noff rec with
  | case1 len hc ih =>
    intro h L hL
    rw [growthLengths_eq, if_pos hc] at hL
    have hf : len + kGrowthIncrement ≤ f.1 (len + kGrowthIncrement) := f.2 _
    rcases List.mem_cons.1 hL with he | hL
    · omega
    · exact ih (by omega) L hL
  | case2 len hc =>
    intro h L hL
    rw [growthLengths_eq, if_neg hc] at hL
    exact absurd hL (List.not_mem_nil L)

/-- `Logv` advances the logical offset by the committed record length. -/
theorem Logv_now_off (f : MapOracle) (hdr msg : List Char)
    (s : PmdkLogger) :
    (Logv f hdr msg s).now_off_ =
      s.now_off_ + (formatRecord hdr msg).record.length := rfl

/-- The capacity after `Logv` is the growth loop's final capacity. -/
theorem Logv_length (f : MapOracle) (hdr msg : List Char)
    (s : PmdkLogger) :
    (Logv f hdr msg s).length_ =
      (growLoop f s.now_off_ (formatRecord hdr msg).record.length
        s.length_ s.fileSize).1 := rfl

/-- The mapped bytes after `Logv` are the old bytes with the record
copied in at the old offset. -/
theorem Logv_mem (f : MapOracle) (hdr msg : List Char) (s : PmdkLogger) :
    (Logv f hdr msg s).mem =
      writeBytes s.mem s.now_off_ (formatRecord hdr msg).record := rfl

/-- The capacity-offset invariant holds after every append. -/
theorem capInv_Logv (f : MapOracle) (hdr msg : List Char)
    (s : PmdkLogger) : CapInv (Logv f hdr msg s) := by
  show (Logv f hdr msg s).now_off_ ≤ (Logv f hdr msg s).length_
  rw [Logv_now_off, Logv_length]
  exact growLoop_reaches f s.now_off_ _ s.length_ s.fileSize

/-- `stepAll` on the empty call list is the identity. -/
theorem stepAll_nil (f : MapOracle) (s : PmdkLogger) :
    stepAll f s [] = s := rfl

/-- `stepAll` peels one call. -/
theorem stepAll_cons (f : MapOracle) (s : PmdkLogger)
    (c : List Char × List Char) (cs : List (List Char × List Char)) :
    stepAll f s (c :: cs) = stepAll f (Logv f c.1 c.2 s) cs := rfl

/-- The capacity-offset invariant is preserved by any call sequence. -/
theorem capInv_stepAll (f : MapOracle)
    (calls : List (List Char × List Char)) :
    ∀ s : PmdkLogger, CapInv s → CapInv (stepAll f s calls) := by
  induction calls with
  | nil => intro s h; exact h
  | cons c cs ih =>
    intro s h
    rw [stepAll_cons]
    exact ih _ (capInv_Logv f c.1 c.2 s)

/-- The logical offset after a call sequence is the starting offset plus
the sum of the committed record lengths. -/
theorem stepAll_now_off (f : MapOracle)
    (calls : List (List Char × List Char)) :
    ∀ s : PmdkLogger,
      (stepAll f s calls).now_off_ =
        s.now_off_ +
          (calls.map fun c => (formatRecord c.1 c.2).record.length).sum := by
  induction calls with
  | nil => intro s; rw [stepAll_nil]; simp
  | cons c cs ih =>
    intro s
    rw [stepAll_cons, ih, Logv_now_off]
    simp
    omega

/-- Unfolding equation: `recordRanges` on the empty call list. -/
theorem recordRanges_nil (f : MapOracle) (s : PmdkLogger) :
    recordRanges f s [] = [] := rfl

/-- Unfolding equation: `recordRanges` peels one call. -/
theorem recordRanges_cons (f : MapOracle) (s : PmdkLogger)
    (c : List Char × List Char) (cs : List (List Char × List Char)) :
    recordRanges f s (c :: cs) =
      (s.now_off_, (formatRecord c.1 c.2).record.length) ::
        recordRanges f (Logv f c.1 c.2 s) cs := rfl

/-- Every record's start offset is at least the starting offset. -/
theorem recordRanges_start_ge (f : MapOracle)
    (calls : List (List Char × List Char)) :
    ∀ s : PmdkLogger, ∀ r ∈ recordRanges f s calls, s.now_off_ ≤ r.1 := by
  induction calls with
  | nil => intro s r hr; rw [recordRanges_nil] at hr; simp at hr
  | cons c cs ih =>
    intro s r hr
    rw [recordRanges_cons] at hr
    rcases List.mem_cons.1 hr with he | hr
    · rw [he]
    · have h := ih _ r hr
      rw [Logv_now_off] at h
      omega

/-- Consecutive records: each record starts where the previous ended. -/
theorem recordRanges_chain (f : MapOracle)
    (calls : List (List Char × List Char)) :
    ∀ s : PmdkLogger,
      List.Chain' (fun a b : Nat × Nat => b.1 = a.1 + a.2)
        (recordRanges f s calls) := by
  induction calls with
  | nil => intro s; rw [recordRanges_nil]; exact List.chain'_nil
  | cons c cs ih =>
    intro s
    rw [recordRanges_cons]
    refine List.chain'_cons'.2 ⟨?_, ih _⟩
    intro b hb
    cases cs with
    | nil => rw [recordRanges_nil] at hb; simp at hb
    | cons d ds =>
      rw [recordRanges_cons] at hb
      simp at hb
      rw [← hb]
      exact Logv_now_off f c.1 c.2 s

/-- Any two records of a call sequence occupy disjoint byte ranges: the
earlier record ends no later than the later one starts. -/
theorem recordRanges_pairwise (f : MapOracle)
    (calls : List (List Char × List Char)) :
    ∀ s : PmdkLogger,
      List.Pairwise (fun a b : Nat × Nat => a.1 + a.2 ≤ b.1)
        (recordRanges f s calls) := by
  induction calls with
  | nil => intro s; rw [recordRanges_nil]; exact List.Pairwise.nil
  | cons c cs ih =>
    intro s
    rw [recordRanges_cons]
    refine List.pairwise_cons.2 ⟨?_, ih _⟩
    intro b hb
    have h := recordRanges_start_ge f cs (Logv f c.1 c.2 s) b hb
    rw [Logv_now_off] at h
    exact h

/-- Claim C1: the mapped capacity `length_` is at least the logical
offset `now_off_` immediately after construction (fresh or existing),
after every iteration of the capacity-growth loop, after the offset
advance of every append, and hence after every sequence of appends. -/
theorem c1_capacity_ge_offset (f : MapOracle) (len0 fsz0 : Nat)
    (ex : Bool) (m0 : Nat → Char)
    (calls : List (List Char × List Char)) (hdr msg : List Char)
    (s : PmdkLogger) (hs : CapInv s) :
    CapInv (mkLogger len0 ex fsz0 m0) ∧
    (∀ L ∈ growthLengths f s.now_off_
        (formatRecord hdr msg).record.length s.length_,
      s.now_off_ ≤ L) ∧
    CapInv (Logv f hdr msg s) ∧
    CapInv (stepAll f (mkLogger len0 ex fsz0 m0) calls) := by
  have hmk : CapInv (mkLogger len0 ex fsz0 m0) := by
    show (if ex then len0 else 0) ≤ len0
    cases ex <;> simp
  refine ⟨hmk, ?_, capInv_Logv f hdr msg s, capInv_stepAll f calls _ hmk⟩
  exact growthLengths_ge f s.now_off_
    (formatRecord hdr msg).record.length s.length_ hs

/-- Witness for C1 at a concrete existing-region construction, one
growth-provoking append, and a two-call sequence. -/
theorem c1_capacity_ge_offset_witness :
    CapInv (mkLogger 7 true 7 fun _ => 'a') ∧
    (∀ L ∈ growthLengths ⟨fun r => r, fun r => le_refl r⟩
        (mkLogger 7 true 7 fun _ => 'a').now_off_
        (formatRecord [' '] ['m']).record.length
        (mkLogger 7 true 7 fun _ => 'a').length_,
      (mkLogger 7 true 7 fun _ => 'a').now_off_ ≤ L) ∧
    CapInv (Logv ⟨fun r => r, fun r => le_refl r⟩ [' '] ['m']
      (mkLogger 7 true 7 fun _ => 'a')) ∧
    CapInv (stepAll ⟨fun r => r, fun r => le_refl r⟩
      (mkLogger 7 true 7 fun _ => 'a') [([' '], ['m']), ([' '], [])]) :=
  c1_capacity_ge_offset ⟨fun r => r, fun r => le_refl r⟩ 7 7 true
    (fun _ => 'a') [([' '], ['m']), ([' '], [])] [' '] ['m']
    (mkLogger 7 true 7 fun _ => 'a') (le_refl 7)

/-- Claim C10: at the moment the record is copied, the destination range
`[now_off_, now_off_ + record length)` lies inside the mapped capacity:
the growth loop has established `now_off_ + buffer_offset ≤ length_`, so
the persistent copy never writes past the end of the mapped region. -/
theorem c10_copy_within_capacity (f : MapOracle) (hdr msg : List Char)
    (s : PmdkLogger) :
    s.now_off_ + (formatRecord hdr msg).record.length ≤
      (Logv f hdr msg s).length_ := by
  rw [Logv_length]
  exact growLoop_reaches f s.now_off_ _ s.length_ s.fileSize

/-- Claim C2: when the pending record does not fit, the growth loop
repeatedly remaps requesting the current capacity plus 32 MiB and adopts
the returned size; when the primitive returns the requested size (as
`pmem_map_file` does for a nonzero request), the capacity strictly
increases by a positive multiple of 32 MiB sufficient for the new
requirement. -/
theorem c2_growth_multiple (f : MapOracle) (hdr msg : List Char)
    (s : PmdkLogger) (hExact : ∀ r : Nat, f.1 r = r)
    (hneed : s.length_ <
      s.now_off_ + (formatRecord hdr msg).record.length) :
    ∃ k, 1 ≤ k ∧
      (Logv f hdr msg s).length_ = s.length_ + k * kGrowthIncrement ∧
      s.length_ < (Logv f hdr msg s).length_ ∧
      s.now_off_ + (formatRecord hdr msg).record.length ≤
        (Logv f hdr msg s).length_ := by
  obtain ⟨k, hk, he⟩ := growLoop_exact f s.now_off_
    (formatRecord hdr msg).record.length hExact s.length_ s.fileSize hneed
  have hK : 0 < kGrowthIncrement := by norm_num [kGrowthIncrement]
  refine ⟨k, hk, ?_, ?_, ?_⟩
  · rw [Logv_length]; exact he
  · rw [Logv_length, he]
    exact Nat.lt_add_of_pos_right (Nat.mul_pos hk hK)
  · rw [Logv_length]
    exact growLoop_reaches f s.now_off_ _ s.length_ s.fileSize

/-- Witness for C2: a fresh zero-capacity logger and an empty message
(record is the lone mandatory newline) force one growth step. -/
theorem c2_growth_multiple_witness :
    ∃ k, 1 ≤ k ∧
      (Logv ⟨fun r => r, fun r => le_refl r⟩ [] []
          (mkLogger 0 false 0 fun _ => 'a')).length_ =
        (mkLogger 0 false 0 fun _ => 'a').length_ +
          k * kGrowthIncrement ∧
      (mkLogger 0 false 0 fun _ => 'a').length_ <
        (Logv ⟨fun r => r, fun r => le_refl r⟩ [] []
          (mkLogger 0 false 0 fun _ => 'a')).length_ ∧
      (mkLogger 0 false 0 fun _ => 'a').now_off_ +
          (formatRecord [] []).record.length ≤
        (Logv ⟨fun r => r, fun r => le_refl r⟩ [] []
          (mkLogger 0 false 0 fun _ => 'a')).length_ :=
  c2_growth_multiple ⟨fun r => r, fun r => le_refl r⟩ [] []
    (mkLogger 0 false 0 fun _ => 'a') (fun r => rfl) (by decide)

/-- Claim C3: a sequence of N sequential appends advances the logical
offset by exactly the sum of the N rendered record lengths (each with
its trailing line break); the records occupy consecutive, pairwise
disjoint half-open byte ranges. -/
theorem c3_offsets_sum_records_disjoint (f : MapOracle) (s : PmdkLogger)
    (calls : List (List Char × List Char)) :
    (stepAll f s calls).now_off_ =
      s.now_off_ +
        (calls.map fun c => (formatRecord c.1 c.2).record.length).sum ∧
    List.Chain' (fun a b : Nat × Nat => b.1 = a.1 + a.2)
      (recordRanges f s calls) ∧
    List.Pairwise (fun a b : Nat × Nat => a.1 + a.2 ≤ b.1)
      (recordRanges f s calls) :=
  ⟨stepAll_now_off f calls s, recordRanges_chain f calls s,
    recordRanges_pairwise f calls s⟩

/-- The newline fix-up always leaves a line break as the last byte. -/
theorem addNewline_getLast (l : List Char) :
    (addNewline l).getLast? = some '\n' := by
  unfold addNewline
  by_cases h : l.getLast? = some '\n'
  · rw [if_pos h]; exact h
  · rw [if_neg h]; exact List.getLast?_concat l

/-- On either path the committed record is the full rendered bytes with
the newline fix-up: the staging buffer never truncates the record (the
stack path is only taken when the bytes fit, and the dynamic buffer is
sized to fit by construction). -/
theorem formatRecord_record (hdr msg : List Char) :
    (formatRecord hdr msg).record = addNewline (hdr ++ msg) := by
  have hlen : (hdr ++ msg).length = hdr.length + msg.length :=
    List.length_append hdr msg
  unfold formatRecord
  by_cases hb : kStackBufferSize - 1 ≤ hdr.length + msg.length
  · rw [if_pos hb]
    have hinner :
        ¬ (hdr.length + msg.length + 2 - 1 ≤ hdr.length + msg.length) := by
      omega
    rw [if_neg hinner]
    have htake :
        (hdr ++ msg).take (hdr.length + msg.length + 2 - 1) = hdr ++ msg :=
      List.take_of_length_le (by omega)
    rw [htake]
  · rw [if_neg hb]
    have htake : (hdr ++ msg).take (kStackBufferSize - 1) = hdr ++ msg :=
      List.take_of_length_le (by omega)
    rw [htake]

/-- Claim C4: when the formatted header-plus-body is at most the stack
buffer size minus 2 (510 bytes), `Logv` stays on the stack path: no
dynamic buffer is sized or allocated, and the committed record is the
full rendered bytes with the newline fix-up. -/
theorem c4_stack_path (hdr msg : List Char)
    (hfit : hdr.length + msg.length ≤ kStackBufferSize - 2) :
    (formatRecord hdr msg).usedDynamic = false ∧
    (formatRecord hdr msg).dynamicSize = 0 ∧
    (formatRecord hdr msg).record = addNewline (hdr ++ msg) := by
  have hlt : ¬ (kStackBufferSize - 1 ≤ hdr.length + msg.length) := by
    norm_num [kStackBufferSize] at hfit ⊢
    omega
  refine ⟨?_, ?_, formatRecord_record hdr msg⟩ <;>
    · unfold formatRecord
      rw [if_neg hlt]

/-- Witness for C4: a short header and message. -/
theorem c4_stack_path_witness :
    (formatRecord ['h', ' '] ['m']).usedDynamic = false ∧
    (formatRecord ['h', ' '] ['m']).dynamicSize = 0 ∧
    (formatRecord ['h', ' '] ['m']).record =
      addNewline (['h', ' '] ++ ['m']) :=
  c4_stack_path ['h', ' '] ['m'] (by decide)

/-- Claim C5 counterexample: a 28-byte header with a 483-byte message
ending in two line breaks takes the dynamic path, and the committed
record does NOT end in exactly one line break (its last two bytes are
both line breaks), refuting the claim's "still ends in exactly one line
break" at this input. -/
theorem c5_counterexample :
    (kStackBufferSize - 1 ≤ (List.replicate 28 ' ').length +
      (List.replicate 481 'a' ++ ['\n', '\n']).length) ∧
    (formatRecord (List.replicate 28 ' ')
      (List.replicate 481 'a' ++ ['\n', '\n'])).usedDynamic = true ∧
    endsWithOneNewline (formatRecord (List.replicate 28 ' ')
      (List.replicate 481 'a' ++ ['\n', '\n'])).record = false := by
  set_option maxRecDepth 4000 in decide

/-- Claim C5 (amended): when the formatted header-plus-body exceeds what
the stack buffer can hold (511 bytes or more), the single re-format uses
a dynamic buffer of size exactly header+message length plus 2, commits
the full rendered bytes with the newline fix-up (no truncation), and the
record ends in a line break (though not necessarily in exactly one when
the message itself ends in several). -/
theorem c5_dynamic_path (hdr msg : List Char)
    (hbig : kStackBufferSize - 1 ≤ hdr.length + msg.length) :
    (formatRecord hdr msg).usedDynamic = true ∧
    (formatRecord hdr msg).dynamicSize =
      hdr.length + msg.length + 2 ∧
    (formatRecord hdr msg).record = addNewline (hdr ++ msg) ∧
    (formatRecord hdr msg).record.getLast? = some '\n' := by
  have hinner :
      ¬ (hdr.length + msg.length + 2 - 1 ≤ hdr.length + msg.length) := by
    omega
  refine ⟨?_, ?_, formatRecord_record hdr msg, ?_⟩
  · unfold formatRecord
    rw [if_pos hbig, if_neg hinner]
  · unfold formatRecord
    rw [if_pos hbig, if_neg hinner]
  · rw [formatRecord_record hdr msg]
    exact addNewline_getLast (hdr ++ msg)

/-- Witness for C5 (amended): a 28-byte header and a 483-byte message. -/
theorem c5_dynamic_path_witness :
    (formatRecord (List.replicate 28 ' ')
      (List.replicate 483 'a')).usedDynamic = true ∧
    (formatRecord (List.replicate 28 ' ')
      (List.replicate 483 'a')).dynamicSize =
      (List.replicate 28 ' ').length +
        (List.replicate 483 'a').length + 2 ∧
    (formatRecord (List.replicate 28 ' ')
      (List.replicate 483 'a')).record =
      addNewline (List.replicate 28 ' ' ++ List.replicate 483 'a') ∧
    (formatRecord (List.replicate 28 ' ')
      (List.replicate 483 'a')).record.getLast? = some '\n' :=
  c5_dynamic_path (List.replicate 28 ' ') (List.replicate 483 'a')
    (by norm_num [kStackBufferSize, List.length_replicate])

/-- Claim C6 counterexample: a message whose rendered bytes end in two
line breaks is committed unchanged, so the record's last two bytes are
both line breaks — it does not end with exactly one trailing line
break. -/
theorem c6_counterexample :
    (formatRecord ['h', ' '] ['\n', '\n']).record =
      ['h', ' ', '\n', '\n'] ∧
    endsWithOneNewline (formatRecord ['h', ' '] ['\n', '\n']).record =
      false := by
  decide

/-- Claim C6 (amended): every committed record ends with at least one
trailing line break; when the rendered bytes do not already end in a
line break exactly one is appended; rendered bytes already ending in a
line break get no second one; and an empty message still yields a
record terminated by the mandatory line break after the header (whose
last byte is a space). -/
theorem c6_trailing_newline (hdr msg : List Char)
    (hsp : hdr.getLast? = some ' ') :
    (formatRecord hdr msg).record.getLast? = some '\n' ∧
    ((hdr ++ msg).getLast? ≠ some '\n' →
      (formatRecord hdr msg).record = hdr ++ msg ++ ['\n']) ∧
    ((hdr ++ msg).getLast? = some '\n' →
      (formatRecord hdr msg).record = hdr ++ msg) ∧
    (formatRecord hdr []).record = hdr ++ ['\n'] := by
  refine ⟨?_, ?_, ?_, ?_⟩
  · rw [formatRecord_record hdr msg]
    exact addNewline_getLast (hdr ++ msg)
  · intro h
    rw [formatRecord_record hdr msg]
    unfold addNewline
    rw [if_neg h, List.append_assoc]
  · intro h
    rw [formatRecord_record hdr msg]
    unfold addNewline
    rw [if_pos h]
  · rw [formatRecord_record hdr []]
    unfold addNewline
    have h : (hdr ++ []).getLast? = some ' ' := by
      rw [List.append_nil]; exact hsp
    rw [List.append_nil] at h ⊢
    rw [if_neg (by rw [h]; decide)]

/-- Witness for C6 (amended): a two-byte space-terminated header. -/
theorem c6_trailing_newline_witness :
    (formatRecord ['h', ' '] ['m']).record.getLast? = some '\n' ∧
    ((['h', ' '] ++ ['m']).getLast? ≠ some '\n' →
      (formatRecord ['h', ' '] ['m']).record =
        ['h', ' '] ++ ['m'] ++ ['\n']) ∧
    ((['h', ' '] ++ ['m']).getLast? = some '\n' →
      (formatRecord ['h', ' '] ['m']).record = ['h', ' '] ++ ['m']) ∧
    (formatRecord ['h', ' '] []).record = ['h', ' '] ++ ['\n'] :=
  c6_trailing_newline ['h', ' '] ['m'] (by decide)

/-- The persistent copy leaves every byte below the write offset
unchanged. -/
theorem writeBytes_below (mem : Nat → Char) (off : Nat) (bs : List Char)
    (i : Nat) (hi : i < off) : writeBytes mem off bs i = mem i := by
  unfold writeBytes
  rw [dif_neg]
  intro hc
  omega

/-- No call sequence changes a byte below the starting offset. -/
theorem stepAll_mem_below (f : MapOracle)
    (calls : List (List Char × List Char)) :
    ∀ (s : PmdkLogger) (i : Nat), i < s.now_off_ →
      (stepAll f s calls).mem i = s.mem i := by
  induction calls with
  | nil => intro s i _; rw [stepAll_nil]
  | cons c cs ih =>
    intro s i hi
    rw [stepAll_cons]
    have hmono : s.now_off_ ≤ (Logv f c.1 c.2 s).now_off_ := by
      rw [Logv_now_off]; omega
    rw [ih (Logv f c.1 c.2 s) i (by omega), Logv_mem]
    exact writeBytes_below s.mem s.now_off_ _ i hi

/-- Claim C7: constructing with `existing = true` and initial mapped
length `L` starts the logical offset at `L`, constructing with
`existing = false` starts it at `0`, and every subsequent append writes
only at offsets at or above `L`: no byte of `[0, L)` is ever changed by
any sequence of appends on an existing-region logger. -/
theorem c7_reopen_preserves_prefix (f : MapOracle) (L fsz : Nat)
    (m0 : Nat → Char) (calls : List (List Char × List Char)) (i : Nat)
    (hi : i < L) :
    (mkLogger L true fsz m0).now_off_ = L ∧
    (mkLogger L false fsz m0).now_off_ = 0 ∧
    (stepAll f (mkLogger L true fsz m0) calls).mem i = m0 i := by
  refine ⟨rfl, rfl, ?_⟩
  exact stepAll_mem_below f calls (mkLogger L true fsz m0) i hi

/-- Witness for C7: an existing 3-byte region, one append, byte 1. -/
theorem c7_reopen_preserves_prefix_witness :
    (mkLogger 3 true 3 fun _ => 'a').now_off_ = 3 ∧
    (mkLogger 3 false 3 fun _ => 'a').now_off_ = 0 ∧
    (stepAll ⟨fun r => r, fun r => le_refl r⟩
        (mkLogger 3 true 3 fun _ => 'a') [([' '], ['m'])]).mem 1 =
      (fun _ : Nat => 'a') 1 :=
  c7_reopen_preserves_prefix ⟨fun r => r, fun r => le_refl r⟩ 3 3
    (fun _ => 'a') [([' '], ['m'])] 1 (by decide)

/-- Claim C8: when the destructor runs while a live mapping is held
(`mmap_base_ != NULL`), it remaps the backing file requesting
`now_off_ + 1` bytes — leaving the file sized to the logical content
plus one byte — adopts the returned size, and unmaps; when no live
mapping is held the whole step is skipped and the state is untouched;
and running disposal on an already-disposed state reproduces the same
state (disposal is idempotent). -/
theorem c8_dtor_shrinks_idempotent (f : MapOracle) (s : PmdkLogger) :
    (s.baseNull = false →
      dtorStep f s =
        { length_ := f.1 (s.now_off_ + 1)
          now_off_ := s.now_off_
          baseNull := false
          fileSize := s.now_off_ + 1
          mem := s.mem } ∧
      (dtorStep f s).fileSize = s.now_off_ + 1 ∧
      s.now_off_ < (dtorStep f s).fileSize) ∧
    (s.baseNull = true → dtorStep f s = s) ∧
    dtorStep f (dtorStep f s) = dtorStep f s := by
  refine ⟨?_, ?_, ?_⟩
  · intro h
    refine ⟨?_, ?_, ?_⟩ <;> simp [dtorStep, h]
  · intro h
    simp [dtorStep, h]
  · by_cases h : s.baseNull <;> simp [dtorStep, h]

/-- Witness for C8: a live logger at offset 4, and a null-base state. -/
theorem c8_dtor_shrinks_idempotent_witness :
    ((mkLogger 9 true 9 fun _ => 'a').baseNull = false →
      dtorStep ⟨fun r => r, fun r => le_refl r⟩
          (mkLogger 9 true 9 fun _ => 'a') =
        { length_ := (⟨fun r => r, fun r => le_refl r⟩ : MapOracle).1
            ((mkLogger 9 true 9 fun _ => 'a').now_off_ + 1)
          now_off_ := (mkLogger 9 true 9 fun _ => 'a').now_off_
          baseNull := false
          fileSize := (mkLogger 9 true 9 fun _ => 'a').now_off_ + 1
          mem := (mkLogger 9 true 9 fun _ => 'a').mem } ∧
      (dtorStep ⟨fun r => r, fun r => le_refl r⟩
          (mkLogger 9 true 9 fun _ => 'a')).fileSize =
        (mkLogger 9 true 9 fun _ => 'a').now_off_ + 1 ∧
      (mkLogger 9 true 9 fun _ => 'a').now_off_ <
        (dtorStep ⟨fun r => r, fun r => le_refl r⟩
          (mkLogger 9 true 9 fun _ => 'a')).fileSize) ∧
    ((mkLogger 9 true 9 fun _ => 'a').baseNull = true →
      dtorStep ⟨fun r => r, fun r => le_refl r⟩
          (mkLogger 9 true 9 fun _ => 'a') =
        mkLogger 9 true 9 fun _ => 'a') ∧
    dtorStep ⟨fun r => r, fun r => le_refl r⟩
        (dtorStep ⟨fun r => r, fun r => le_refl r⟩
          (mkLogger 9 true 9 fun _ => 'a')) =
      dtorStep ⟨fun r => r, fun r => le_refl r⟩
        (mkLogger 9 true 9 fun _ => 'a') :=
  c8_dtor_shrinks_idempotent ⟨fun r => r, fun r => le_refl r⟩
    (mkLogger 9 true 9 fun _ => 'a')

/-- Each produced digit character is a decimal digit. -/
theorem digitChar_isDigit (d : Nat) : (digitChar d).isDigit = true := by
  unfold digitChar
  match d with
  | 0 | 1 | 2 | 3 | 4 | 5 | 6 | 7 | 8 | 9 => decide
  | n + 10 =>
    rw [List.getD_eq_default]
    · decide
    · simp

/-- Unfolding equation for `natToDigits` below ten. -/
theorem natToDigits_lt (n : Nat) (h : n < 10) :
    natToDigits n = [digitChar n] := by
  rw [natToDigits]
  rw [dif_pos h]

/-- Unfolding equation for `natToDigits` at ten or above. -/
theorem natToDigits_ge (n : Nat) (h : ¬ n < 10) :
    natToDigits n = natToDigits (n / 10) ++ [digitChar (n % 10)] := by
  rw [natToDigits]
  rw [dif_neg h]

/-- Every character of a decimal rendering is a decimal digit. -/
theorem natToDigits_isDigit (n : Nat) :
    ∀ c ∈ natToDigits n, c.isDigit = true := by
  induction n using natToDigits.induct with
  | case1 n h =>
    intro c hc
    rw [natToDigits_lt n h] at hc
    simp at hc
    rw [hc]
    exact digitChar_isDigit n
  | case2 n h ih =>
    intro c hc
    rw [natToDigits_ge n h] at hc
    rcases List.mem_append.1 hc with h1 | h1
    · exact ih c h1
    · simp at h1
      rw [h1]
      exact digitChar_isDigit _

/-- A value below `10 ^ k` renders in at most `k` digits (`k` positive). -/
theorem natToDigits_length_le (k : Nat) :
    ∀ n : Nat, 0 < k → n < 10 ^ k → (natToDigits n).length ≤ k := by
  induction k with
  | zero => intro n h hn; omega
  | succ k ih =>
    intro n _ hn
    by_cases h : n < 10
    · rw [natToDigits_lt n h]
      simp
    · rw [natToDigits_ge n h]
      have hk : 0 < k := by
        rcases Nat.eq_zero_or_pos k with rfl | hk
        · rw [pow_one] at hn
          omega
        · exact hk
      have hn2 : n < 10 ^ k * 10 := by
        rw [← pow_succ]
        exact hn
      have hdiv : n / 10 < 10 ^ k :=
        (Nat.div_lt_iff_lt_mul (by norm_num)).2 hn2
      have hlen := ih (n / 10) hk hdiv
      simp [List.length_append]
      omega

/-- `%0Wd` of a value below `10 ^ W` renders exactly `W` characters. -/
theorem fmtInt_length (w n : Nat) (hw : 0 < w) (hn : n < 10 ^ w) :
    (fmtInt w n).length = w := by
  unfold fmtInt
  have h := natToDigits_length_le w n hw hn
  simp [List.length_append, List.length_replicate]
  omega

/-- Every character `%0Wd` renders is a decimal digit. -/
theorem fmtInt_isDigit (w n : Nat) :
    ∀ c ∈ fmtInt w n, c.isDigit = true := by
  unfold fmtInt
  intro c hc
  rcases List.mem_append.1 hc with h | h
  · rw [List.eq_of_mem_replicate h]
    decide
  · exact natToDigits_isDigit n c h

/-- A string of decimal digits contains no line break. -/
theorem count_newline_of_digits (l : List Char)
    (h : ∀ c ∈ l, c.isDigit = true) : l.count '\n' = 0 := by
  rw [List.count_eq_zero]
  intro hmem
  exact absurd (h _ hmem) (by decide)

/-- The truncated thread id has at most `kMaxThreadIdSize` characters. -/
theorem truncThreadId_length (tid : List Char) :
    (truncThreadId tid).length ≤ kMaxThreadIdSize := by
  unfold truncThreadId
  by_cases h : kMaxThreadIdSize < tid.length
  · rw [if_pos h]
    simp
  · rw [if_neg h]
    omega

/-- Truncation introduces no character absent from the thread id. -/
theorem truncThreadId_not_mem (tid : List Char) (c : Char)
    (h : ¬ c ∈ tid) : ¬ c ∈ truncThreadId tid := by
  unfold truncThreadId
  by_cases h32 : kMaxThreadIdSize < tid.length
  · rw [if_pos h32]
    intro hm
    exact h (List.mem_of_mem_take hm)
  · rw [if_neg h32]
    exact h

/-- Claim C9: for a fixed captured instant and thread identity,
`Log(logger, "%s=%d", "x", 5)` commits exactly one line of the form
`YYYY/MM/DD-HH:MM:SS.UUUUUU <tid> x=5` followed by a single newline —
4-digit year, 2-digit month/day/hour/minute/second, 6-digit
microseconds, one space before and one after the thread id, the thread
id truncated to at most 32 characters — and the logical offset grows by
exactly the line's length. -/
theorem c9_example_line (f : MapOracle) (t : TmNow) (rawTid : List Char)
    (s : PmdkLogger) (tid hdr msg record : List Char)
    (hy : t.tm_year + 1900 < 10 ^ 4) (hmo : t.tm_mon + 1 < 10 ^ 2)
    (hd : t.tm_mday < 10 ^ 2) (hh : t.tm_hour < 10 ^ 2)
    (hmi : t.tm_min < 10 ^ 2) (hsec : t.tm_sec < 10 ^ 2)
    (hu : t.tv_usec < 10 ^ 6) (hnl : ¬ '\n' ∈ rawTid)
    (htid : tid = truncThreadId rawTid)
    (hhdr : hdr = formatHeader t tid)
    (hmsg : msg = fmtPercentSPercentD ['x'] 5)
    (hrec : record = (formatRecord hdr msg).record) :
    record =
      fmtInt 4 (t.tm_year + 1900) ++ ['/'] ++ fmtInt 2 (t.tm_mon + 1) ++
        ['/'] ++ fmtInt 2 t.tm_mday ++ ['-'] ++ fmtInt 2 t.tm_hour ++
        [':'] ++ fmtInt 2 t.tm_min ++ [':'] ++ fmtInt 2 t.tm_sec ++
        ['.'] ++ fmtInt 6 t.tv_usec ++ [' '] ++ tid ++ [' '] ++
        ['x', '=', '5', '\n'] ∧
    (fmtInt 4 (t.tm_year + 1900)).length = 4 ∧
    (fmtInt 2 (t.tm_mon + 1)).length = 2 ∧
    (fmtInt 2 t.tm_mday).length = 2 ∧
    (fmtInt 2 t.tm_hour).length = 2 ∧
    (fmtInt 2 t.tm_min).length = 2 ∧
    (fmtInt 2 t.tm_sec).length = 2 ∧
    (fmtInt 6 t.tv_usec).length = 6 ∧
    (∀ c ∈ fmtInt 4 (t.tm_year + 1900) ++ fmtInt 2 (t.tm_mon + 1) ++
        fmtInt 2 t.tm_mday ++ fmtInt 2 t.tm_hour ++ fmtInt 2 t.tm_min ++
        fmtInt 2 t.tm_sec ++ fmtInt 6 t.tv_usec, c.isDigit = true) ∧
    tid.length ≤ kMaxThreadIdSize ∧
    record.count '\n' = 1 ∧
    record.getLast? = some '\n' ∧
    (Logv f hdr msg s).now_off_ = s.now_off_ + record.length ∧
    record.length = 28 + tid.length + 4 := by
  have hnd5 : natToDigits 5 = ['5'] := by
    rw [natToDigits_lt 5 (by norm_num)]
    rfl
  have hmsg3 : msg = ['x', '=', '5'] := by
    rw [hmsg]
    unfold fmtPercentSPercentD
    rw [hnd5]
    rfl
  have htidnl : ¬ '\n' ∈ tid := by
    rw [htid]
    exact truncThreadId_not_mem rawTid '\n' hnl
  have hlast : (hdr ++ msg).getLast? = some '5' := by
    rw [hmsg3,
      show (['x', '=', '5'] : List Char) = ['x', '='] ++ ['5'] from rfl,
      ← List.append_assoc]
    exact List.getLast?_concat _
  have hrecord : record = hdr ++ msg ++ ['\n'] := by
    rw [hrec, formatRecord_record]
    unfold addNewline
    rw [if_neg (by rw [hlast]; decide), List.append_assoc]
  have hhdrlen : hdr.length = 28 + tid.length := by
    rw [hhdr]
    unfold formatHeader
    simp only [List.length_append, List.length_cons, List.length_nil]
    rw [fmtInt_length 4 _ (by norm_num) hy,
      fmtInt_length 2 _ (by norm_num) hmo,
      fmtInt_length 2 _ (by norm_num) hd,
      fmtInt_length 2 _ (by norm_num) hh,
      fmtInt_length 2 _ (by norm_num) hmi,
      fmtInt_length 2 _ (by norm_num) hsec,
      fmtInt_length 6 _ (by norm_num) hu]
    omega
  have hAcnt : ∀ w n : Nat, (fmtInt w n).count '\n' = 0 := fun w n =>
    count_newline_of_digits _ (fmtInt_isDigit w n)
  have hhdrcnt : hdr.count '\n' = 0 := by
    rw [hhdr]
    unfold formatHeader
    simp [List.count_append, hAcnt, List.count_eq_zero.2 htidnl]
  refine ⟨?_, fmtInt_length 4 _ (by norm_num) hy,
    fmtInt_length 2 _ (by norm_num) hmo,
    fmtInt_length 2 _ (by norm_num) hd,
    fmtInt_length 2 _ (by norm_num) hh,
    fmtInt_length 2 _ (by norm_num) hmi,
    fmtInt_length 2 _ (by norm_num) hsec,
    fmtInt_length 6 _ (by norm_num) hu, ?_, ?_, ?_, ?_, ?_, ?_⟩
  · rw [hrecord, hhdr, hmsg3]
    unfold formatHeader
    simp [List.append_assoc]
  · intro c hc
    rcases List.mem_append.1 hc with hc | hc
    rotate_left
    · exact fmtInt_isDigit _ _ c hc
    rcases List.mem_append.1 hc with hc | hc
    rotate_left
    · exact fmtInt_isDigit _ _ c hc
    rcases List.mem_append.1 hc with hc | hc
    rotate_left
    · exact fmtInt_isDigit _ _ c hc
    rcases List.mem_append.1 hc with hc | hc
    rotate_left
    · exact fmtInt_isDigit _ _ c hc
    rcases List.mem_append.1 hc with hc | hc
    rotate_left
    · exact fmtInt_isDigit _ _ c hc
    rcases List.mem_append.1 hc with hc | hc
    · exact fmtInt_isDigit _ _ c hc
    · exact fmtInt_isDigit _ _ c hc
  · rw [htid]
    exact truncThreadId_length rawTid
  · rw [hrecord, hmsg3, List.count_append, List.count_append, hhdrcnt]
    decide
  · rw [hrec, formatRecord_record]
    exact addNewline_getLast (hdr ++ msg)
  · rw [Logv_now_off, ← hrec]
  · rw [hrecord, hmsg3]
    simp only [List.length_append, List.length_cons, List.length_nil,
      hhdrlen]

/-- Witness for C9: the instant year-2000/01/01 02:03:04.000005, thread
id "t1", on a fresh logger. -/
theorem c9_example_line_witness :
    (formatRecord
        (formatHeader ⟨100, 0, 1, 2, 3, 4, 5⟩ (truncThreadId ['t', '1']))
        (fmtPercentSPercentD ['x'] 5)).record =
      fmtInt 4 (100 + 1900) ++ ['/'] ++ fmtInt 2 (0 + 1) ++ ['/'] ++
        fmtInt 2 1 ++ ['-'] ++ fmtInt 2 2 ++ [':'] ++ fmtInt 2 3 ++
        [':'] ++ fmtInt 2 4 ++ ['.'] ++ fmtInt 6 5 ++ [' '] ++
        truncThreadId ['t', '1'] ++ [' '] ++ ['x', '=', '5', '\n'] ∧
    (fmtInt 4 (100 + 1900)).length = 4 ∧
    (fmtInt 2 (0 + 1)).length = 2 ∧
    (fmtInt 2 1).length = 2 ∧
    (fmtInt 2 2).length = 2 ∧
    (fmtInt 2 3).length = 2 ∧
    (fmtInt 2 4).length = 2 ∧
    (fmtInt 6 5).length = 6 ∧
    (∀ c ∈ fmtInt 4 (100 + 1900) ++ fmtInt 2 (0 + 1) ++ fmtInt 2 1 ++
        fmtInt 2 2 ++ fmtInt 2 3 ++ fmtInt 2 4 ++ fmtInt 6 5,
      c.isDigit = true) ∧
    (truncThreadId ['t', '1']).length ≤ kMaxThreadIdSize ∧
    (formatRecord
        (formatHeader ⟨100, 0, 1, 2, 3, 4, 5⟩ (truncThreadId ['t', '1']))
        (fmtPercentSPercentD ['x'] 5)).record.count '\n' = 1 ∧
    (formatRecord
        (formatHeader ⟨100, 0, 1, 2, 3, 4, 5⟩ (truncThreadId ['t', '1']))
        (fmtPercentSPercentD ['x'] 5)).record.getLast? = some '\n' ∧
    (Logv ⟨fun r => r, fun r => le_refl r⟩
        (formatHeader ⟨100, 0, 1, 2, 3, 4, 5⟩ (truncThreadId ['t', '1']))
        (fmtPercentSPercentD ['x'] 5)
        (mkLogger 0 false 0 fun _ => 'a')).now_off_ =
      (mkLogger 0 false 0 fun _ => 'a').now_off_ +
        (formatRecord
          (formatHeader ⟨100, 0, 1, 2, 3, 4, 5⟩
            (truncThreadId ['t', '1']))
          (fmtPercentSPercentD ['x'] 5)).record.length ∧
    (formatRecord
        (formatHeader ⟨100, 0, 1, 2, 3, 4, 5⟩ (truncThreadId ['t', '1']))
        (fmtPercentSPercentD ['x'] 5)).record.length =
      28 + (truncThreadId ['t', '1']).length + 4 :=
  c9_example_line ⟨fun r => r, fun r => le_refl r⟩
    ⟨100, 0, 1, 2, 3, 4, 5⟩ ['t', '1'] (mkLogger 0 false 0 fun _ => 'a')
    (truncThreadId ['t', '1'])
    (formatHeader ⟨100, 0, 1, 2, 3, 4, 5⟩ (truncThreadId ['t', '1']))
    (fmtPercentSPercentD ['x'] 5)
    (formatRecord
      (formatHeader ⟨100, 0, 1, 2, 3, 4, 5⟩ (truncThreadId ['t', '1']))
      (fmtPercentSPercentD ['x'] 5)).record
    (by decide) (by decide) (by decide) (by decide) (by decide)
    (by decide) (by decide) (by decide) rfl rfl rfl rfl
